import Mathlib

/-!
Shallow embedding of the goa repository's runtime error primitives
(`src/error.go`) and of the HTTP server-types code generator, the latter
modelled from the specification and anchored to the generated-code test
fixtures in `src/http/codegen/server_types_test.go`.
-/

namespace Goa

/-- `HTTPError` from `src/error.go`: code, HTTP status, detail and the
optional metadata map.  `metaValues = none` models a nil Go map (the state
`NewErrorClass` leaves the field in). -/
structure HTTPError where
  code : String
  status : Int
  detail : String
  metaValues : Option (List (String × String))
deriving DecidableEq, Repr

/-- A Go `error` value as used in `src/error.go`: a `*HTTPError`, a
`MultiError` (a slice of errors), or any other error implementation. -/
inductive GoErr where
  | http (e : HTTPError)
  | multi (errs : List GoErr)
  | other (msg : String)
deriving Repr

/-- A nullable Go `error` interface value: `none` is the nil interface. -/
abbrev GoError := Option GoErr

/-- `NewErrorClass` from `src/error.go`: returns a factory producing
`*HTTPError` values with the given code and status; the formatting of the
`fm`/`v` arguments is collapsed into the already-formatted `detail` string.
The `MetaValues` field is left at its zero value (nil map). -/
def NewErrorClass (code : String) (status : Int) : String → HTTPError :=
  fun detail => { code := code, status := status, detail := detail, metaValues := none }

/-- Go map assignment `m[k] = v`: replace the binding if the key exists,
otherwise add it. -/
def mapSet (m : List (String × String)) (k v : String) : List (String × String) :=
  match m with
  | [] => [(k, v)]
  | (k', v') :: rest => if k' = k then (k, v) :: rest else (k', v') :: mapSet rest k v

/-- The loop body of `HTTPError.Meta` from `src/error.go`: walks the
variadic key/value list two at a time, substituting "MISSING" for a
dangling key. -/
def metaLoop (m : List (String × String)) : List String → List (String × String)
  | [] => m
  | [k] => mapSet m k "MISSING"
  | k :: v :: rest => metaLoop (mapSet m k v) rest

/-- `(*HTTPError).Meta` from `src/error.go`.  Assigning into a nil Go map
panics, which the embedding models as `none`: when `metaValues` is nil the
loop panics on its first iteration, so any non-empty `keyvals` yields
`none` while an empty `keyvals` never executes the loop body. -/
def HTTPError.Meta (e : HTTPError) (keyvals : List String) : Option HTTPError :=
  match e.metaValues with
  | some m => some { e with metaValues := some (metaLoop m keyvals) }
  | none =>
    match keyvals with
    | [] => some e
    | _ :: _ => none

/-- The slice `MultiError` from `src/error.go`. -/
abbrev MultiError := List GoErr

/-- The loop over `m[1:]` inside `MultiError.Status`: returns 500 on any
non-`HTTPError` entry or any entry with status 500, downgrades the running
status to 400 on a mismatch, and otherwise keeps folding. -/
def statusLoop (status : Int) : List GoErr → Int
  | [] => status
  | e :: rest =>
    match e with
    | .http he =>
      if he.status = 500 then 500
      else if he.status ≠ status then statusLoop 400 rest
      else statusLoop status rest
    | _ => 500

/-- `MultiError.Status` from `src/error.go`: 500 for the empty collection
or a non-`HTTPError` head, the head's own status for a singleton, and
otherwise the fold of `statusLoop` seeded with the head's status. -/
def MultiError.Status (m : MultiError) : Int :=
  match m with
  | [] => 500
  | e0 :: rest =>
    match e0 with
    | .http he =>
      match rest with
      | [] => he.status
      | _ :: _ => statusLoop he.status rest
    | _ => 500

/-- `StackErrors` from `src/error.go`, translated case by case from the
nil checks and `MultiError` type assertions.  Every return path wraps a
concrete `MultiError` value, hence a non-nil interface. -/
def StackErrors (err err2 : GoError) : GoError :=
  match err with
  | none =>
    match err2 with
    | none => some (.multi [])
    | some (.multi merr2) => some (.multi merr2)
    | some (.http e2) => some (.multi [.http e2])
    | some (.other s2) => some (.multi [.other s2])
  | some (.multi merr) =>
    match err2 with
    | none => some (.multi merr)
    | some (.multi merr2) => some (.multi (merr ++ merr2))
    | some (.http e2) => some (.multi (merr ++ [.http e2]))
    | some (.other s2) => some (.multi (merr ++ [.other s2]))
  | some (.http e) =>
    match err2 with
    | none => some (.multi [.http e])
    | some (.multi merr2) => some (.multi ([.http e] ++ merr2))
    | some (.http e2) => some (.multi [.http e, .http e2])
    | some (.other s2) => some (.multi [.http e, .other s2])
  | some (.other s) =>
    match err2 with
    | none => some (.multi [.other s])
    | some (.multi merr2) => some (.multi ([.other s] ++ merr2))
    | some (.http e2) => some (.multi [.other s, .http e2])
    | some (.other s2) => some (.multi [.other s, .other s2])

/-- The entry list an error contributes to a stacked `MultiError`: nothing
for nil, its elements for a `MultiError`, itself otherwise. -/
def entries : GoError → List GoErr
  | none => []
  | some (.multi l) => l
  | some (.http e) => [.http e]
  | some (.other s) => [.other s]

/-- Sample `HTTPError` with status 500 (as built by `ErrInternal`). -/
def he500 : HTTPError := NewErrorClass "internal" 500 "boom"

/-- Sample `HTTPError` with status 400 (as built by `ErrMissingParam`). -/
def he400 : HTTPError := NewErrorClass "missing_parameter" 400 "missing"

/-- Sample `HTTPError` with status 401. -/
def he401 : HTTPError := NewErrorClass "unauthorized" 401 "denied"

example : MultiError.Status [.http he400, .http he400, .http he400] = 400 := by decide
example : MultiError.Status [.http he400, .http he500, .http he400] = 500 := by decide
example : MultiError.Status [.http he400, .http he401, .http he400] = 400 := by decide
example : MultiError.Status [.http he500, .http he400] = 400 := by decide
example : MultiError.Status [] = 500 := by decide
example : StackErrors none none = some (.multi []) := by rfl

/-- C1: the claim says `MultiError.Status` returns 500 whenever any entry
has status 500, regardless of position.  The code's own doc comment states
the same rule, but the loop only inspects `m[1:]` for the 500 sentinel: on
the two-entry collection `[status 500, status 400]` the code computes 400,
contradicting both the claim and its own documentation. -/
theorem status_ignores_leading_500 :
    MultiError.Status [.http he500, .http he400] = 400 ∧ he500.status = 500 := by
  constructor
  · decide
  · rfl

/-- C5: `StackErrors` returns the `MultiError` whose entries are those of
`err` (itself when it is a non-nil non-`MultiError`) followed by those of
`err2`, with `MultiError` arguments spliced in flat. -/
theorem stackErrors_entries (err err2 : GoError) :
    StackErrors err err2 = some (.multi (entries err ++ entries err2)) := by
  cases err with
  | none =>
    cases err2 with
    | none => rfl
    | some e2 => cases e2 <;> rfl
  | some e =>
    cases e with
    | http he => cases err2 with
      | none => rfl
      | some e2 => cases e2 <;> rfl
    | multi l => cases err2 with
      | none => simp [StackErrors, entries]
      | some e2 => cases e2 <;> rfl
    | other m => cases err2 with
      | none => rfl
      | some e2 => cases e2 <;> rfl

/-- C8: `MultiError.Status` returns 500 on the empty collection and, for a
singleton holding one `*HTTPError`, that entry's own status. -/
theorem status_empty_and_singleton :
    MultiError.Status [] = 500 ∧
      ∀ he : HTTPError, MultiError.Status [.http he] = he.status := by
  exact ⟨rfl, fun he => rfl⟩

/-- C9: every `HTTPError` produced by a class obtained from
`NewErrorClass` has a nil `MetaValues` map, so `Meta` with at least one
key/value argument assigns into a nil map and panics (modelled as
`none`). -/
theorem meta_on_new_class_panics (code : String) (status : Int) (detail : String)
    (keyvals : List String) (h : keyvals ≠ []) :
    (NewErrorClass code status detail).Meta keyvals = none := by
  cases keyvals with
  | nil => exact absurd rfl h
  | cons k rest => rfl

/-- Witness for C9 at a concrete error class and argument list. -/
theorem meta_on_new_class_panics_witness :
    (["k", "v"] : List String) ≠ [] ∧
      (NewErrorClass "invalid_parameter_type" 400 "bad").Meta ["k", "v"] = none :=
  ⟨by decide, meta_on_new_class_panics "invalid_parameter_type" 400 "bad" ["k", "v"] (by decide)⟩

/-- C10: `StackErrors nil nil` returns an empty `MultiError` wrapped in a
non-nil interface value (`some`), and `Status` on that empty collection
yields 500. -/
theorem stackErrors_nil_nil :
    StackErrors none none = some (.multi []) ∧ MultiError.Status [] = 500 :=
  ⟨rfl, rfl⟩

end Goa

namespace Codegen

/-!
Modelled from the spec: the HTTP server-types generator (Body Shape
Synthesizer, Name Registry, Validation Synthesizer and inbound Converter
Synthesizer of spec sections 4.2-4.5).  The generator's implementation is
not part of the sources; the model follows the spec's words and is
anchored, where the two disagree, to the expected generated code recorded
in `src/http/codegen/server_types_test.go`.
-/

/-- Primitive attribute kinds appearing in the fixtures.  `pBytes` and
`pAny` are primitives whose Go wire representation is inherently nilable
(`[]byte`, `any`), so they are never wrapped in a pointer. -/
inductive Prim where
  | pString
  | pInt
  | pUInt
  | pFloat
  | pBool
  | pBytes
  | pAny
deriving DecidableEq, Repr

/-- Whether a primitive has a scalar (pointer-wrappable) representation. -/
def Prim.scalar : Prim → Bool
  | .pBytes => false
  | .pAny => false
  | _ => true

/-- Validation rules an attribute can carry (spec section 3). -/
inductive VRule where
  | vpattern (p : String)
  | vformat (f : String)
  | rangeMin (n : Int)
  | rangeMax (n : Int)
  | minLength (n : Nat)
  | maxLength (n : Nat)
  | enumOf (vs : List String)
deriving DecidableEq, Repr

mutual
/-- Modelled from the spec: an Attribute node (spec section 3).  A
user-defined type carries its name together with its (object) definition
inlined, so the tree is finite; the Name Registry still deduplicates by
the user-type name.  The spec's result-with-view kind is a top-level
selector and lives in `TopAttr`: when a viewed result type is referenced
*inside* a body its projection is emitted as a plain user-type record
with no view suffix, as the `RtResponseBody` record of the
`ResultWithResultView` fixture shows. -/
inductive Attr where
  | prim (t : Prim)
  | arr (elem : Attr)
  | mapOf (key : Prim) (velem : Attr)
  | user (uname : String) (body : Fields)

/-- Modelled from the spec: the ordered field list of an object attribute;
each field carries its wire name, required flag, validation rules and
value attribute. -/
inductive Fields where
  | fnil
  | fcons (fname : String) (required : Bool) (rules : List VRule) (ty : Attr) (rest : Fields)
end

/-- The role of a body shape: request or response side. -/
inductive Role where
  | request
  | response
deriving DecidableEq, Repr

/-- Name fragment appended for a role, as in the fixture type names
`MethodARequestBody` and `RtResponseBody`. -/
def Role.text : Role → String
  | .request => "RequestBody"
  | .response => "ResponseBody"

/-- Wire-level Go type of one generated record field. -/
inductive WireTy where
  | val (t : Prim)
  | ptr (t : Prim)
  | raw (t : Prim)
  | arrOf (elem : WireTy)
  | mapOf (key : Prim) (velem : WireTy)
  | ptrRec (rname : String)
deriving DecidableEq, Repr

/-- Whether a wire type can hold Go `nil`. -/
def WireTy.nilable : WireTy → Bool
  | .val _ => false
  | _ => true

/-- Wire type of a collection element: scalars are plain values, nested
user types are pointers to their named record. -/
def wireElem (role : Role) : Attr → WireTy
  | .prim t => if t.scalar then .val t else .raw t
  | .arr e => .arrOf (wireElem role e)
  | .mapOf k v => .mapOf k (wireElem role v)
  | .user un _ => .ptrRec (un ++ role.text)

/-- Wire type of a record field.  Anchored to the fixtures: request-body
scalar fields are always pointers (absence must be detectable before
validation, see `MethodBRequestBody.A`), response-body scalar fields are
plain values exactly when required (`MethodWithErrorCustomPkgErrorNameResponseBody.Name`),
and collections are never wrapped in an extra optionality layer. -/
def wireField (role : Role) (req : Bool) : Attr → WireTy
  | .prim t =>
    if t.scalar then
      match role with
      | .request => .ptr t
      | .response => if req then .val t else .ptr t
    else .raw t
  | .arr e => .arrOf (wireElem role e)
  | .mapOf k v => .mapOf k (wireElem role v)
  | .user un _ => .ptrRec (un ++ role.text)

/-- One field of a generated record: wire name, required flag of its
source attribute, and its wire type. -/
structure RecField where
  fname : String
  required : Bool
  ty : WireTy
deriving DecidableEq, Repr

/-- A generated record type definition. -/
structure RecordDef where
  rname : String
  fields : List RecField
deriving DecidableEq, Repr

/-- Record fields synthesized from an attribute field list. -/
def recFields (role : Role) : Fields → List RecField
  | .fnil => []
  | .fcons n req _ ty rest => ⟨n, req, wireField role req ty⟩ :: recFields role rest

mutual
/-- Modelled from the spec: the nested-record walk of the Body Shape
Synthesizer (spec section 4.3).  The registry (a list of reserved record
names, the structural keys of spec section 4.2) is consulted before
emitting: a user type whose key is already reserved is skipped, otherwise
its record is emitted and its definition descended into. -/
def nestedFromAttr (role : Role) : Attr → List String → (List (String × Fields) × List String)
  | .prim _, reg => ([], reg)
  | .arr e, reg => nestedFromAttr role e reg
  | .mapOf _ v, reg => nestedFromAttr role v reg
  | .user un body, reg =>
    let nm := un ++ role.text
    if nm ∈ reg then ([], reg)
    else
      let p := nestedFromFields role body (nm :: reg)
      ((nm, body) :: p.1, p.2)

/-- Field-list companion of `nestedFromAttr`, walking fields in
declaration order and threading the registry. -/
def nestedFromFields (role : Role) : Fields → List String → (List (String × Fields) × List String)
  | .fnil, reg => ([], reg)
  | .fcons _ _ _ ty rest, reg =>
    let p := nestedFromAttr role ty reg
    let q := nestedFromFields role rest p.2
    (p.1 ++ q.1, q.2)
end

/-- Top-level record name (spec section 4.3 naming rule):
method name, optional error identifier, then the role fragment. -/
def topRecordName (method : String) (errIdent : Option String) (role : Role) : String :=
  match errIdent with
  | none => method ++ role.text
  | some e => method ++ e ++ role.text

/-- One check emitted into a generated validation function.  `ruleChk`'s
flag records whether the check is wrapped in a presence guard
(`if body.X != nil`); recursive calls into a nested record's validator are
always guarded, as in the fixtures. -/
inductive Check where
  | missingChk (fname : String)
  | ruleChk (fname : String) (rule : VRule) (guarded : Bool)
  | recurseChk (fname : String) (target : String) (guarded : Bool)
deriving DecidableEq, Repr

/-- Phase (a) of spec section 4.4: one missing-field check per required
field whose wire representation can hold nil. -/
def missingChecks (role : Role) : Fields → List Check
  | .fnil => []
  | .fcons n req _ ty rest =>
    (if req && (wireField role req ty).nilable then [Check.missingChk n] else [])
      ++ missingChecks role rest

/-- Phase (b) of spec section 4.4: the per-field constraint checks.
Anchored to the fixtures: the presence guard is emitted whenever the wire
representation is nilable — in `ValidateMethodBRequestBody` the pattern
check on the required field `a` is still wrapped in `if body.A != nil`. -/
def ruleChecks (role : Role) : Fields → List Check
  | .fnil => []
  | .fcons n req rules ty rest =>
    rules.map (fun r => Check.ruleChk n r (wireField role req ty).nilable)
      ++ ruleChecks role rest

/-- Phase (c) of spec section 4.4: one guarded recursive call into the
shared validator of each field referencing a user type. -/
def recurseChecks (role : Role) : Fields → List Check
  | .fnil => []
  | .fcons n _ _ ty rest =>
    (match ty with
     | .user un _ => [Check.recurseChk n ("Validate" ++ un ++ role.text) true]
     | _ => []) ++ recurseChecks role rest

/-- All checks of one record's validation function, in the fixed phase
order of spec section 4.4. -/
def genChecks (role : Role) (fs : Fields) : List Check :=
  missingChecks role fs ++ ruleChecks role fs ++ recurseChecks role fs

/-- A generated validation function. -/
structure ValidatorDef where
  vname : String
  checks : List Check
deriving DecidableEq, Repr

/-- One statement of a generated inbound converter: plain copies,
dereferences of required scalar pointers, element-wise collection
rebuilds, and calls into a nested shared converter (guarded by a nil
check exactly when the field is optional, as in `NewMethodAAPayload`). -/
inductive Assign where
  | copyPtr (fname : String)
  | derefScalar (fname : String)
  | copyVal (fname : String)
  | rebuildArr (fname : String)
  | rebuildMap (fname : String)
  | convCall (fname : String) (target : String) (guarded : Bool)
deriving DecidableEq, Repr

/-- The converter statement for one field (spec section 4.5, inbound). -/
def fieldAssign (role : Role) (n : String) (req : Bool) : Attr → Assign
  | .prim t =>
    if t.scalar then (if req then .derefScalar n else .copyPtr n) else .copyVal n
  | .arr _ => .rebuildArr n
  | .mapOf _ _ => .rebuildMap n
  | .user un _ => .convCall n ("unmarshal" ++ un ++ role.text) (!req)

/-- All converter statements of one record, in field order. -/
def genAssigns (role : Role) : Fields → List Assign
  | .fnil => []
  | .fcons n req _ ty rest => fieldAssign role n req ty :: genAssigns role rest

/-- A generated conversion function. -/
structure ConvDef where
  cname : String
  assigns : List Assign
deriving DecidableEq, Repr

/-- The full output of the generator for one method body: record type
definitions, validation functions and conversion functions. -/
structure GenOut where
  typeDefs : List RecordDef
  validators : List ValidatorDef
  converters : List ConvDef
deriving DecidableEq, Repr

/-- Modelled from the spec: the generator for one method's body in one
role (spec sections 4.3-4.5), given the already-derived top-level record
name.  Emits the top-level record, then the deduplicated nested user-type
records in declaration order, with one validator and one converter per
emitted record. -/
def synthesizeCore (method topNm : String) (role : Role) (payload : Fields) : GenOut :=
  let nested := (nestedFromFields role payload [topNm]).1
  let allRecs := (topNm, payload) :: nested
  { typeDefs := allRecs.map (fun p => ⟨p.1, recFields role p.2⟩)
  , validators := allRecs.map (fun p => ⟨"Validate" ++ p.1, genChecks role p.2⟩)
  , converters :=
      ⟨"New" ++ method ++ "Payload", genAssigns role payload⟩ ::
        nested.map (fun p => ⟨"unmarshal" ++ p.1, genAssigns role p.2⟩) }

/-- Generator for an unviewed method body: the top-level record is named
by the spec section 4.3 rule. -/
def synthesize (method : String) (errIdent : Option String) (role : Role) (payload : Fields) : GenOut :=
  synthesizeCore method (topRecordName method errIdent role) role payload

/-- Modelled from the spec: the top-level body attribute of one method in
one role — a plain object, or the result-with-view kind of spec
section 3: a projection of a richer result type carrying the selected
view's name. -/
inductive TopAttr where
  | plain (fields : Fields)
  | viewedResult (vname : String) (fields : Fields)

/-- The field list of a top-level body attribute. -/
def TopAttr.fields : TopAttr → Fields
  | .plain fs => fs
  | .viewedResult _ fs => fs

/-- The view selector of a top-level body attribute. -/
def TopAttr.view : TopAttr → Option String
  | .plain _ => none
  | .viewedResult v _ => some v

/-- Top-level record name covering the result-with-view case recorded in
the `ResultWithResultView` fixture: for a viewed result body the selected
view's name is appended after the role fragment, as in
`MethodResultWithResultViewResponseBodyFull`. -/
def topRecordNameV (method : String) (errIdent : Option String) (role : Role)
    (view : Option String) : String :=
  match view with
  | none => topRecordName method errIdent role
  | some v => topRecordName method errIdent role ++ v

/-- Generator entry point for a top-level body attribute, viewed or
not. -/
def synthesizeTop (method : String) (errIdent : Option String) (role : Role)
    (t : TopAttr) : GenOut :=
  synthesizeCore method (topRecordNameV method errIdent role t.view) role t.fields

/-- The `BPayload` user type of the `MixedPayloadInBodyDSL` fixture:
a required int field and an optional bytes field. -/
def bPayloadFields : Fields :=
  .fcons "int" true [] (.prim .pInt) (.fcons "bytes" false [] (.prim .pBytes) .fnil)

/-- The `APayload` body of the `MixedPayloadInBodyDSL` fixture: optional
any, required array of floats, optional map, and the same `BPayload` user
type referenced by the required field `object` and the optional sibling
field `dup_obj`. -/
def mixedFields : Fields :=
  .fcons "any" false [] (.prim .pAny)
    (.fcons "array" true [] (.arr (.prim .pFloat))
      (.fcons "map" false [] (.mapOf .pUInt (.prim .pAny))
        (.fcons "object" true [] (.user "BPayload" bPayloadFields)
          (.fcons "dup_obj" false [] (.user "BPayload" bPayloadFields) .fnil))))

/-- Generator output for the mixed-payload fixture method. -/
def mixedGen : GenOut := synthesize "MethodA" none .request mixedFields

example :
    mixedGen.typeDefs =
      [⟨"MethodARequestBody",
        [⟨"any", false, .raw .pAny⟩,
         ⟨"array", true, .arrOf (.val .pFloat)⟩,
         ⟨"map", false, .mapOf .pUInt (.raw .pAny)⟩,
         ⟨"object", true, .ptrRec "BPayloadRequestBody"⟩,
         ⟨"dup_obj", false, .ptrRec "BPayloadRequestBody"⟩]⟩,
       ⟨"BPayloadRequestBody",
        [⟨"int", true, .ptr .pInt⟩,
         ⟨"bytes", false, .raw .pBytes⟩]⟩] := by decide

example :
    mixedGen.validators =
      [⟨"ValidateMethodARequestBody",
        [.missingChk "array", .missingChk "object",
         .recurseChk "object" "ValidateBPayloadRequestBody" true,
         .recurseChk "dup_obj" "ValidateBPayloadRequestBody" true]⟩,
       ⟨"ValidateBPayloadRequestBody", [.missingChk "int"]⟩] := by decide

example :
    mixedGen.converters =
      [⟨"NewMethodAPayload",
        [.copyVal "any", .rebuildArr "array", .rebuildMap "map",
         .convCall "object" "unmarshalBPayloadRequestBody" false,
         .convCall "dup_obj" "unmarshalBPayloadRequestBody" true]⟩,
       ⟨"unmarshalBPayloadRequestBody",
        [.derefScalar "int", .copyVal "bytes"]⟩] := by decide

/-- The `PayloadType` body of the `MultipleMethodsDSL` fixture's MethodB:
required pattern-checked string `a`, optional pattern-checked string `b`,
and a required reference to the `APayload` user type. -/
def methodBFields : Fields :=
  .fcons "a" true [.vpattern "patterna"] (.prim .pString)
    (.fcons "b" false [.vpattern "patternb"] (.prim .pString)
      (.fcons "c" true [] (.user "APayload"
        (.fcons "a" false [.vpattern "patterna"] (.prim .pString) .fnil)) .fnil))

example :
    genChecks .request methodBFields =
      [.missingChk "a", .missingChk "c",
       .ruleChk "a" (.vpattern "patterna") true,
       .ruleChk "b" (.vpattern "patternb") true,
       .recurseChk "c" "ValidateAPayloadRequestBody" true] := by decide

example :
    recFields .request methodBFields =
      [⟨"a", true, .ptr .pString⟩,
       ⟨"b", false, .ptr .pString⟩,
       ⟨"c", true, .ptrRec "APayloadRequestBody"⟩] := by decide

example :
    genAssigns .request methodBFields =
      [.derefScalar "a", .copyPtr "b",
       .convCall "c" "unmarshalAPayloadRequestBody" false] := by decide

/-- Invariant of the Name Registry walk: the registry only grows, every
emitted record's name was not reserved before and is reserved after, and
the emitted names are pairwise distinct. -/
def RegOk (reg : List String) (p : List (String × Fields) × List String) : Prop :=
  (∀ x ∈ reg, x ∈ p.2) ∧
  (∀ q ∈ p.1, q.1 ∉ reg ∧ q.1 ∈ p.2) ∧
  (p.1.map Prod.fst).Nodup

mutual

theorem regOk_attr (role : Role) (a : Attr) (reg : List String) :
    RegOk reg (nestedFromAttr role a reg) :=
  match a with
  | .prim _ => ⟨fun _ hx => hx, by simp [nestedFromAttr], by simp [nestedFromAttr]⟩
  | .arr e => regOk_attr role e reg
  | .mapOf _ v => regOk_attr role v reg
  | .user un body => by
    by_cases h : (un ++ role.text) ∈ reg
    · simp only [nestedFromAttr, if_pos h]
      exact ⟨fun _ hx => hx, by simp, by simp⟩
    · obtain ⟨ih1, ih2, ih3⟩ := regOk_fields role body ((un ++ role.text) :: reg)
      simp only [nestedFromAttr, if_neg h]
      refine ⟨fun x hx => ih1 x (List.mem_cons_of_mem _ hx), fun q hq => ?_, ?_⟩
      · rcases List.mem_cons.mp hq with hq | hq
        · subst hq
          exact ⟨h, ih1 _ (List.mem_cons_self _ _)⟩
        · exact ⟨fun hc => (ih2 q hq).1 (List.mem_cons_of_mem _ hc), (ih2 q hq).2⟩
      · simp only [List.map_cons, List.nodup_cons]
        refine ⟨fun hc => ?_, ih3⟩
        obtain ⟨q, hq, hq1⟩ := List.mem_map.mp hc
        exact (ih2 q hq).1 (hq1 ▸ List.mem_cons_self _ _)

theorem regOk_fields (role : Role) (fs : Fields) (reg : List String) :
    RegOk reg (nestedFromFields role fs reg) :=
  match fs with
  | .fnil => ⟨fun _ hx => hx, by simp [nestedFromFields], by simp [nestedFromFields]⟩
  | .fcons n req rules ty rest => by
    obtain ⟨p1, p2, p3⟩ := regOk_attr role ty reg
    obtain ⟨q1, q2, q3⟩ := regOk_fields role rest (nestedFromAttr role ty reg).2
    simp only [nestedFromFields]
    refine ⟨fun x hx => q1 x (p1 x hx), fun q hq => ?_, ?_⟩
    · rcases List.mem_append.mp hq with hq | hq
      · exact ⟨(p2 q hq).1, q1 _ (p2 q hq).2⟩
      · exact ⟨fun hc => (q2 q hq).1 (p1 _ hc), (q2 q hq).2⟩
    · rw [List.map_append]
      refine List.Nodup.append p3 q3 fun x hx hx' => ?_
      obtain ⟨qp, hqp, hqp1⟩ := List.mem_map.mp hx
      obtain ⟨qq, hqq, hqq1⟩ := List.mem_map.mp hx'
      exact (q2 qq hqq).1 (hqq1 ▸ hqp1 ▸ (p2 qp hqp).2)

end

/-- Names of the emitted record types of one generation run are pairwise
distinct: the top name is reserved first, and the registry walk never
re-emits a reserved key. -/
theorem synthCoreNames_nodup (method topNm : String)
    (role : Role) (payload : Fields) :
    ((synthesizeCore method topNm role payload).typeDefs.map (fun d => d.rname)).Nodup := by
  obtain ⟨h1, h2, h3⟩ := regOk_fields role payload [topNm]
  simp only [synthesizeCore, List.map_cons, List.map_map, List.nodup_cons]
  constructor
  · intro hc
    obtain ⟨q, hq, hq1⟩ := List.mem_map.mp hc
    exact (h2 q hq).1 (List.mem_singleton.mpr hq1)
  · have : (fun d : RecordDef => d.rname) ∘ (fun p : String × Fields => (⟨p.1, recFields role p.2⟩ : RecordDef)) =
        Prod.fst := rfl
    rw [this]
    exact h3

theorem synthTypeNames_nodup (method : String) (errIdent : Option String)
    (role : Role) (payload : Fields) :
    ((synthesize method errIdent role payload).typeDefs.map (fun d => d.rname)).Nodup :=
  synthCoreNames_nodup method (topRecordName method errIdent role) role payload

/-- C2: in the DupObj case two sibling fields referencing the same user
type in the same role yield exactly one nested record type, one shared
validation function and one shared unmarshal converter, each reference
site invoking the shared function once per referencing field; in general
the registry never emits two record types with the same name. -/
theorem dupobj_single_artifact :
    (∀ (method : String) (errIdent : Option String) (role : Role) (payload : Fields),
        ((synthesize method errIdent role payload).typeDefs.map (fun d => d.rname)).Nodup) ∧
    mixedGen.typeDefs.countP (fun d => d.rname == "BPayloadRequestBody") = 1 ∧
    mixedGen.validators.countP (fun v => v.vname == "ValidateBPayloadRequestBody") = 1 ∧
    mixedGen.converters.countP (fun c => c.cname == "unmarshalBPayloadRequestBody") = 1 ∧
    ((genChecks .request mixedFields).filter fun c =>
        match c with
        | .recurseChk _ t _ => t == "ValidateBPayloadRequestBody"
        | _ => false) =
      [.recurseChk "object" "ValidateBPayloadRequestBody" true,
       .recurseChk "dup_obj" "ValidateBPayloadRequestBody" true] ∧
    ((genAssigns .request mixedFields).filter fun a =>
        match a with
        | .convCall _ t _ => t == "unmarshalBPayloadRequestBody"
        | _ => false) =
      [.convCall "object" "unmarshalBPayloadRequestBody" false,
       .convCall "dup_obj" "unmarshalBPayloadRequestBody" true] :=
  ⟨fun m e r p => synthTypeNames_nodup m e r p, by decide, by decide, by decide,
    by decide, by decide⟩

mutual

/-- User-type names referenced anywhere under an attribute. -/
def userNamesA : Attr → List String
  | .prim _ => []
  | .arr e => userNamesA e
  | .mapOf _ v => userNamesA v
  | .user un body => un :: userNamesF body

/-- User-type names referenced anywhere under a field list. -/
def userNamesF : Fields → List String
  | .fnil => []
  | .fcons _ _ _ ty rest => userNamesA ty ++ userNamesF rest

end

mutual

theorem nestedNames_attr (role : Role) (a : Attr) (reg : List String) :
    ∀ q ∈ (nestedFromAttr role a reg).1, ∃ un ∈ userNamesA a, q.1 = un ++ role.text :=
  match a with
  | .prim _ => by simp [nestedFromAttr]
  | .arr e => nestedNames_attr role e reg
  | .mapOf _ v => nestedNames_attr role v reg
  | .user un body => by
    by_cases h : (un ++ role.text) ∈ reg
    · simp [nestedFromAttr, if_pos h]
    · simp only [nestedFromAttr, if_neg h]
      intro q hq
      rcases List.mem_cons.mp hq with hq | hq
      · exact ⟨un, by simp [userNamesA], by simp [hq]⟩
      · obtain ⟨un', hun', he⟩ :=
          nestedNames_fields role body ((un ++ role.text) :: reg) q hq
        exact ⟨un', by simp [userNamesA, hun'], he⟩

theorem nestedNames_fields (role : Role) (fs : Fields) (reg : List String) :
    ∀ q ∈ (nestedFromFields role fs reg).1, ∃ un ∈ userNamesF fs, q.1 = un ++ role.text :=
  match fs with
  | .fnil => by simp [nestedFromFields]
  | .fcons n req rules ty rest => by
    simp only [nestedFromFields]
    intro q hq
    rcases List.mem_append.mp hq with hq | hq
    · obtain ⟨un, hun, he⟩ := nestedNames_attr role ty reg q hq
      exact ⟨un, by simp [userNamesF, hun], he⟩
    · obtain ⟨un, hun, he⟩ :=
        nestedNames_fields role rest (nestedFromAttr role ty reg).2 q hq
      exact ⟨un, by simp [userNamesF, hun], he⟩

end

/-- The nested `Rt` result type of the `ResultWithResultViewDSL` fixture:
one optional string field. -/
def rtFields : Fields := .fcons "x" false [] (.prim .pString) .fnil

/-- The body of the `ResultWithResultView` fixture's response, projected
through the `Full` view: an optional string `name` and an optional
reference to the viewed `Rt` result type, which nests as a plain
user-type record. -/
def resultViewFields : Fields :=
  .fcons "name" false [] (.prim .pString)
    (.fcons "rt" false [] (.user "Rt" rtFields) .fnil)

/-- Generator output for the viewed-result fixture method. -/
def viewedGen : GenOut :=
  synthesizeTop "MethodResultWithResultView" none .response
    (.viewedResult "Full" resultViewFields)

example :
    viewedGen.typeDefs =
      [⟨"MethodResultWithResultViewResponseBodyFull",
        [⟨"name", false, .ptr .pString⟩,
         ⟨"rt", false, .ptrRec "RtResponseBody"⟩]⟩,
       ⟨"RtResponseBody", [⟨"x", false, .ptr .pString⟩]⟩] := by decide

/-- Necessary condition shared by all three record-name templates of C7
as stated (`<Method><Role>`, `<Method><ErrIdent><Role>`,
`<UserType><Role>`): the name ends in the role fragment. -/
def hasRoleSuffix (name : String) : Bool :=
  "RequestBody".toList.isSuffixOf name.toList ||
    "ResponseBody".toList.isSuffixOf name.toList

theorem template_has_role_suffix (stem : String) (role : Role) :
    hasRoleSuffix (stem ++ role.text) = true := by
  have happ : ∀ t : String, (stem ++ t).toList = stem.toList ++ t.toList := by
    intro t
    simp [String.toList, String.data_append]
  cases role with
  | request =>
    have h : "RequestBody".toList.isSuffixOf (stem ++ "RequestBody").toList = true := by
      rw [List.isSuffixOf_iff_suffix, happ]
      exact List.suffix_append _ _
    simp [hasRoleSuffix, Role.text, h]
  | response =>
    have h : "ResponseBody".toList.isSuffixOf (stem ++ "ResponseBody").toList = true := by
      rw [List.isSuffixOf_iff_suffix, happ]
      exact List.suffix_append _ _
    simp [hasRoleSuffix, Role.text, h]

/-- Counterexample for C7 as stated: the `ResultWithResultView` fixture's
top-level record is `MethodResultWithResultViewResponseBodyFull` — the
view name follows the role fragment — so its name ends in `Full`, not in
a role fragment as all three claimed templates do
(`template_has_role_suffix`); in particular it differs from the
`<MethodName><Role>` name the claim assigns to a top-level response
shape. -/
theorem record_naming_cex :
    (viewedGen.typeDefs.map (fun d => d.rname)).head? =
      some "MethodResultWithResultViewResponseBodyFull" ∧
    hasRoleSuffix "MethodResultWithResultViewResponseBodyFull" = false ∧
    topRecordName "MethodResultWithResultView" none .response =
      "MethodResultWithResultViewResponseBody" :=
  ⟨by decide, by decide, by decide⟩

/-- C7, amended: the top-level emitted record is named
`<MethodName><ErrorIdentifier?><Role>` when the body is plain and
`<MethodName><ErrorIdentifier?><Role><ViewName>` when it is the
projection of a viewed result, and every nested emitted record is named
`<ReferencedUserTypeName><Role>` for some user type referenced by the
payload. -/
theorem record_naming_viewed (method : String) (errIdent : Option String) (role : Role)
    (t : TopAttr) :
    ((synthesizeTop method errIdent role t).typeDefs.map (fun d => d.rname)).head? =
      some (topRecordNameV method errIdent role t.view) ∧
    (∀ fs, t = .plain fs →
      topRecordNameV method errIdent role t.view = topRecordName method errIdent role) ∧
    (∀ vn fs, t = .viewedResult vn fs →
      topRecordNameV method errIdent role t.view =
        topRecordName method errIdent role ++ vn) ∧
    ∀ d ∈ (synthesizeTop method errIdent role t).typeDefs.tail,
      ∃ un ∈ userNamesF t.fields, d.rname = un ++ role.text := by
  refine ⟨?_, ?_, ?_, ?_⟩
  · simp [synthesizeTop, synthesizeCore]
  · intro fs hfs
    subst hfs
    rfl
  · intro vn fs hfs
    subst hfs
    rfl
  · intro d hd
    simp only [synthesizeTop, synthesizeCore, List.map_cons, List.tail_cons] at hd
    obtain ⟨q, hq, hq1⟩ := List.mem_map.mp hd
    obtain ⟨un, hun, he⟩ :=
      nestedNames_fields role t.fields [topRecordNameV method errIdent role t.view] q hq
    exact ⟨un, hun, by rw [← hq1]; exact he⟩

/-- Witness for the amended C7 at the viewed-result fixture: the top
record is `MethodResultWithResultViewResponseBodyFull` (method name, role
fragment, then the `Full` view name) and the nested record emitted for
the `Rt` reference is named `RtResponseBody`. -/
theorem record_naming_viewed_witness :
    (viewedGen.typeDefs.map (fun d => d.rname)).head? =
      some (topRecordNameV "MethodResultWithResultView" none .response
        (TopAttr.viewedResult "Full" resultViewFields).view) ∧
    ∃ un ∈ userNamesF resultViewFields,
      (⟨"RtResponseBody", [⟨"x", false, .ptr .pString⟩]⟩ : RecordDef).rname =
        un ++ Role.response.text :=
  ⟨(record_naming_viewed "MethodResultWithResultView" none .response
      (.viewedResult "Full" resultViewFields)).1,
   (record_naming_viewed "MethodResultWithResultView" none .response
      (.viewedResult "Full" resultViewFields)).2.2.2 _ (by decide)⟩

/-- Declared wire names of a field list, in order. -/
def fieldNames : Fields → List String
  | .fnil => []
  | .fcons n _ _ _ rest => n :: fieldNames rest

/-- Required flag of the named field (false when absent). -/
def fieldIsRequired : Fields → String → Bool
  | .fnil, _ => false
  | .fcons m req _ _ rest, n => if m = n then req else fieldIsRequired rest n

/-- Whether the named field's wire representation can hold nil. -/
def fieldNilable (role : Role) : Fields → String → Bool
  | .fnil, _ => false
  | .fcons m req _ ty rest, n =>
    if m = n then (wireField role req ty).nilable else fieldNilable role rest n

/-- Phase of a check in the fixed emission order of spec section 4.4:
missing-field checks, then constraint checks, then recursive calls. -/
def checkPhase : Check → Nat
  | .missingChk _ => 0
  | .ruleChk _ _ _ => 1
  | .recurseChk _ _ _ => 2

/-- Boolean phase-ordering test over an emitted check list. -/
def sortedPhases : List Check → Bool
  | [] => true
  | [_] => true
  | a :: b :: rest => Nat.ble (checkPhase a) (checkPhase b) && sortedPhases (b :: rest)

/-- Names of the required fields of a record. -/
def requiredNames : Fields → List String
  | .fnil => []
  | .fcons n req _ _ rest => (if req then [n] else []) ++ requiredNames rest

/-- C3's statement as written, as a decidable test on one record: checks
are phase-ordered, every required field gets exactly one missing-field
check, constraint checks are guarded exactly when the field is optional,
and recursive calls are guarded. -/
def claimThreeStated (fs : Fields) : Bool :=
  let cs := genChecks .request fs
  sortedPhases cs &&
    ((requiredNames fs).all fun n => cs.count (.missingChk n) == 1) &&
    (cs.all fun c =>
      match c with
      | .ruleChk n _ g => g == !(fieldIsRequired fs n)
      | _ => true) &&
    (cs.all fun c =>
      match c with
      | .recurseChk _ _ g => g
      | _ => true)

/-- Counterexample for C3 as stated: in the fixture record of MethodB the
field `a` is required, yet its pattern check is emitted inside a presence
guard (`if body.A != nil` in `ValidateMethodBRequestBody`), contradicting
the claim's "unguarded when the field is required". -/
theorem validation_order_cex :
    claimThreeStated methodBFields = false ∧
    fieldIsRequired methodBFields "a" = true ∧
    Check.ruleChk "a" (.vpattern "patterna") true ∈ genChecks .request methodBFields :=
  ⟨by decide, by decide, by decide⟩

theorem missingChecks_phase (role : Role) :
    ∀ (fs : Fields), ∀ c ∈ missingChecks role fs, checkPhase c = 0
  | .fnil => by simp [missingChecks]
  | .fcons n req rules ty rest => by
    intro c hc
    simp only [missingChecks] at hc
    rcases List.mem_append.mp hc with h | h
    · by_cases hb : req && (wireField role req ty).nilable
      · rw [if_pos hb] at h
        simp only [List.mem_singleton] at h
        simp [h, checkPhase]
      · rw [if_neg hb] at h
        exact absurd h (List.not_mem_nil c)
    · exact missingChecks_phase role rest c h

theorem ruleChecks_phase (role : Role) :
    ∀ (fs : Fields), ∀ c ∈ ruleChecks role fs, checkPhase c = 1
  | .fnil => by simp [ruleChecks]
  | .fcons n req rules ty rest => by
    intro c hc
    simp only [ruleChecks] at hc
    rcases List.mem_append.mp hc with h | h
    · obtain ⟨r, _, hr⟩ := List.mem_map.mp h
      simp [← hr, checkPhase]
    · exact ruleChecks_phase role rest c h

theorem recurseChecks_phase (role : Role) :
    ∀ (fs : Fields), ∀ c ∈ recurseChecks role fs, checkPhase c = 2
  | .fnil => by simp [recurseChecks]
  | .fcons n req rules ty rest => by
    intro c hc
    simp only [recurseChecks] at hc
    rcases List.mem_append.mp hc with h | h
    · cases ty <;> simp only [List.mem_singleton] at h <;> first
        | exact absurd h (List.not_mem_nil c)
        | simp [h, checkPhase]
    · exact recurseChecks_phase role rest c h

theorem sortedPhases_of_const (k : Nat) (l : List Check)
    (h : ∀ c ∈ l, checkPhase c = k) : sortedPhases l = true := by
  induction l with
  | nil => rfl
  | cons a l' ih =>
    cases l' with
    | nil => rfl
    | cons b l'' =>
      rw [sortedPhases]
      simp only [Bool.and_eq_true]
      refine ⟨?_, ih fun c hc => h c (List.mem_cons_of_mem a hc)⟩
      have ha := h a (List.mem_cons_self a _)
      have hb := h b (List.mem_cons_of_mem a (List.mem_cons_self b _))
      rw [ha, hb]
      exact Nat.ble_eq.mpr (Nat.le_refl k)

theorem sortedPhases_append (l1 l2 : List Check)
    (h1 : sortedPhases l1 = true) (h2 : sortedPhases l2 = true)
    (h : ∀ a ∈ l1, ∀ b ∈ l2, checkPhase a ≤ checkPhase b) :
    sortedPhases (l1 ++ l2) = true := by
  induction l1 with
  | nil => simpa using h2
  | cons a l1' ih =>
    cases l1' with
    | nil =>
      cases l2 with
      | nil => simpa using h1
      | cons b l2' =>
        rw [List.singleton_append, sortedPhases]
        simp only [Bool.and_eq_true]
        refine ⟨?_, h2⟩
        exact Nat.ble_eq.mpr
          (h a (List.mem_cons_self a _) b (List.mem_cons_self b _))
    | cons a' rest =>
      rw [sortedPhases] at h1
      simp only [Bool.and_eq_true] at h1
      obtain ⟨hab, h1'⟩ := h1
      rw [List.cons_append, List.cons_append, sortedPhases, ← List.cons_append]
      simp only [Bool.and_eq_true]
      exact ⟨hab, ih h1' fun x hx => h x (List.mem_cons_of_mem a hx)⟩

theorem sortedPhases_genChecks (role : Role) (fs : Fields) :
    sortedPhases (genChecks role fs) = true := by
  rw [genChecks, List.append_assoc]
  refine sortedPhases_append _ _ ?_ ?_ ?_
  · exact sortedPhases_of_const 0 _ (missingChecks_phase role fs)
  · refine sortedPhases_append _ _ ?_ ?_ ?_
    · exact sortedPhases_of_const 1 _ (ruleChecks_phase role fs)
    · exact sortedPhases_of_const 2 _ (recurseChecks_phase role fs)
    · intro a ha b hb
      rw [ruleChecks_phase role fs a ha, recurseChecks_phase role fs b hb]
      exact Nat.le_succ 1
  · intro a ha b hb
    rw [missingChecks_phase role fs a ha]
    exact Nat.zero_le _

theorem missingChecks_names (role : Role) :
    ∀ (fs : Fields), ∀ n, Check.missingChk n ∈ missingChecks role fs → n ∈ fieldNames fs
  | .fnil => by simp [missingChecks]
  | .fcons m req rules ty rest => by
    intro n hc
    simp only [missingChecks] at hc
    rcases List.mem_append.mp hc with h | h
    · by_cases hb : req && (wireField role req ty).nilable
      · rw [if_pos hb] at h
        simp only [List.mem_singleton, Check.missingChk.injEq] at h
        simp [fieldNames, h]
      · rw [if_neg hb] at h
        exact absurd h (List.not_mem_nil _)
    · exact List.mem_cons_of_mem m (missingChecks_names role rest n h)

theorem missingChecks_count (role : Role) :
    ∀ (fs : Fields), (fieldNames fs).Nodup → ∀ (n : String),
      (missingChecks role fs).count (.missingChk n) =
        if fieldIsRequired fs n && fieldNilable role fs n then 1 else 0
  | .fnil => by simp [missingChecks, fieldIsRequired]
  | .fcons m req rules ty rest => by
    intro h n
    simp only [fieldNames, List.nodup_cons] at h
    obtain ⟨hm, hrest⟩ := h
    simp only [missingChecks, List.count_append]
    by_cases hmn : m = n
    · subst hmn
      have hz : (missingChecks role rest).count (.missingChk m) = 0 :=
        List.count_eq_zero.mpr fun hc => hm (missingChecks_names role rest m hc)
      rw [hz]
      by_cases hb : req && (wireField role req ty).nilable
      · rw [if_pos hb]
        simp [fieldIsRequired, fieldNilable, hb]
      · rw [if_neg hb]
        simp [fieldIsRequired, fieldNilable, hb]
    · have hr := missingChecks_count role rest hrest n
      simp only [fieldIsRequired, fieldNilable, if_neg hmn]
      rw [← hr]
      have hz : (if req && (wireField role req ty).nilable
          then [Check.missingChk m] else []).count (.missingChk n) = 0 := by
        by_cases hb : req && (wireField role req ty).nilable
        · rw [if_pos hb]
          refine List.count_eq_zero.mpr ?_
          simp only [List.mem_singleton, Check.missingChk.injEq]
          exact fun he => hmn he.symm
        · rw [if_neg hb]
          rfl
      omega

theorem ruleChecks_shape (role : Role) :
    ∀ (fs : Fields), (fieldNames fs).Nodup →
      ∀ c ∈ ruleChecks role fs,
        ∃ n r, c = Check.ruleChk n r (fieldNilable role fs n) ∧ n ∈ fieldNames fs
  | .fnil => by simp [ruleChecks]
  | .fcons m req rules ty rest => by
    intro h c hc
    simp only [fieldNames, List.nodup_cons] at h
    obtain ⟨hm, hrest⟩ := h
    simp only [ruleChecks] at hc
    rcases List.mem_append.mp hc with hin | hin
    · obtain ⟨r, _, hr⟩ := List.mem_map.mp hin
      exact ⟨m, r, by simp [← hr, fieldNilable], by simp [fieldNames]⟩
    · obtain ⟨n, r, hc2, hn⟩ := ruleChecks_shape role rest hrest c hin
      have hmn : m ≠ n := fun he => hm (he ▸ hn)
      exact ⟨n, r, by simp [hc2, fieldNilable, hmn], by simp [fieldNames, hn]⟩

theorem recurseChecks_shape (role : Role) :
    ∀ (fs : Fields), ∀ c ∈ recurseChecks role fs, ∃ n t, c = Check.recurseChk n t true
  | .fnil => by simp [recurseChecks]
  | .fcons m req rules ty rest => by
    intro c hc
    simp only [recurseChecks] at hc
    rcases List.mem_append.mp hc with h | h
    · cases ty <;> simp only [List.mem_singleton] at h
      case user un body => exact ⟨m, "Validate" ++ un ++ role.text, h⟩
      all_goals exact absurd h (List.not_mem_nil c)
    · exact recurseChecks_shape role rest c h

/-- C3, amended: the checks of every generated validation function come in
the fixed order missing-field checks, constraint checks, recursive calls;
there is exactly one missing-field check per required field with a nilable
wire representation; a constraint check carries a presence guard exactly
when the field's wire representation is nilable (for required request-body
fields too, since those are pointers); and recursive calls are always
guarded by a presence check. -/
theorem validation_check_order (role : Role) (fs : Fields)
    (h : (fieldNames fs).Nodup) :
    sortedPhases (genChecks role fs) = true ∧
    (∀ n, (genChecks role fs).count (.missingChk n) =
      if fieldIsRequired fs n && fieldNilable role fs n then 1 else 0) ∧
    (∀ c ∈ genChecks role fs, ∀ n r g, c = Check.ruleChk n r g →
      g = fieldNilable role fs n) ∧
    (∀ c ∈ genChecks role fs, ∀ n t g, c = Check.recurseChk n t g → g = true) := by
  refine ⟨sortedPhases_genChecks role fs, ?_, ?_, ?_⟩
  · intro n
    have hz1 : (ruleChecks role fs).count (.missingChk n) = 0 :=
      List.count_eq_zero.mpr fun hc => by
        have := ruleChecks_phase role fs _ hc
        simp [checkPhase] at this
    have hz2 : (recurseChecks role fs).count (.missingChk n) = 0 :=
      List.count_eq_zero.mpr fun hc => by
        have := recurseChecks_phase role fs _ hc
        simp [checkPhase] at this
    rw [genChecks, List.count_append, List.count_append, hz1, hz2,
      missingChecks_count role fs h n]
    omega
  · intro c hc n r g he
    subst he
    rw [genChecks, List.append_assoc] at hc
    rcases List.mem_append.mp hc with hin | hin
    · have := missingChecks_phase role fs _ hin
      simp [checkPhase] at this
    rcases List.mem_append.mp hin with hin | hin
    · obtain ⟨n2, r2, he2, _⟩ := ruleChecks_shape role fs h _ hin
      simp only [Check.ruleChk.injEq] at he2
      obtain ⟨e1, _, e3⟩ := he2
      rw [e3, e1]
    · have := recurseChecks_phase role fs _ hin
      simp [checkPhase] at this
  · intro c hc n t g he
    subst he
    rw [genChecks, List.append_assoc] at hc
    rcases List.mem_append.mp hc with hin | hin
    · have := missingChecks_phase role fs _ hin
      simp [checkPhase] at this
    rcases List.mem_append.mp hin with hin | hin
    · have := ruleChecks_phase role fs _ hin
      simp [checkPhase] at this
    · obtain ⟨n2, t2, he2⟩ := recurseChecks_shape role fs _ hin
      simp only [Check.recurseChk.injEq] at he2
      exact he2.2.2

theorem validation_check_order_witness :
    (fieldNames methodBFields).Nodup ∧
    sortedPhases (genChecks .request methodBFields) = true ∧
    (genChecks .request methodBFields).count (.missingChk "a") =
      if fieldIsRequired methodBFields "a" && fieldNilable .request methodBFields "a"
      then 1 else 0 :=
  ⟨by decide,
   (validation_check_order .request methodBFields (by decide)).1,
   (validation_check_order .request methodBFields (by decide)).2.1 "a"⟩

/-- Whether an attribute is a primitive of scalar kind. -/
def isScalarAttr : Attr → Bool
  | .prim t => t.scalar
  | _ => false

/-- C4's statement as written, for one field: a required scalar field is
represented non-nullable, every other field nullable. -/
def claimFourStated (role : Role) (req : Bool) (a : Attr) : Bool :=
  if req && isScalarAttr a then !(wireField role req a).nilable
  else (wireField role req a).nilable

/-- Counterexample for C4 as stated: field `a` of the MethodB request body
is required and of scalar kind, yet the fixture `MethodBRequestBody` types
it `*string` — a nullable slot — because request bodies keep every scalar
behind a pointer so that absence is detectable before validation. -/
theorem field_nullability_cex :
    claimFourStated .request true (.prim .pString) = false ∧
    (⟨"a", true, .ptr .pString⟩ : RecField) ∈ recFields .request methodBFields :=
  ⟨by decide, by decide⟩

/-- C4, amended: in response bodies a required scalar field is a
non-nullable value and every other response field is nullable; in request
bodies every field is nullable (scalars are always pointers); and
collection fields are never wrapped in an extra optionality layer —
an array or map attribute maps to the bare collection type whether or not
it is required. -/
theorem field_nullability (role : Role) (req : Bool) (a : Attr) :
    (role = .response → req = true → isScalarAttr a = true →
      (wireField role req a).nilable = false) ∧
    (role = .request → (wireField role req a).nilable = true) ∧
    (¬(req = true ∧ isScalarAttr a = true) → (wireField role req a).nilable = true) ∧
    (∀ e, a = .arr e → wireField role req a = .arrOf (wireElem role e)) ∧
    (∀ k v, a = .mapOf k v → wireField role req a = .mapOf k (wireElem role v)) := by
  refine ⟨?_, ?_, ?_, ?_, ?_⟩
  · intro hrole hreq hsc
    subst hrole; subst hreq
    cases a with
    | prim t => cases t <;> simp_all [wireField, isScalarAttr, Prim.scalar, WireTy.nilable]
    | arr e => simp [isScalarAttr] at hsc
    | mapOf k v => simp [isScalarAttr] at hsc
    | user un body => simp [isScalarAttr] at hsc
  · intro hrole
    subst hrole
    cases a with
    | prim t => cases t <;> simp [wireField, Prim.scalar, WireTy.nilable]
    | arr e => simp [wireField, WireTy.nilable]
    | mapOf k v => simp [wireField, WireTy.nilable]
    | user un body => simp [wireField, WireTy.nilable]
  · intro hn
    cases a with
    | prim t =>
      cases role with
      | request => cases t <;> simp [wireField, Prim.scalar, WireTy.nilable]
      | response =>
        cases t <;> cases req <;>
          simp_all [wireField, isScalarAttr, Prim.scalar, WireTy.nilable]
    | arr e => simp [wireField, WireTy.nilable]
    | mapOf k v => simp [wireField, WireTy.nilable]
    | user un body => simp [wireField, WireTy.nilable]
  · intro e he
    subst he
    rfl
  · intro k v he
    subst he
    rfl

/-- Witness for the amended C4: a required response scalar is a bare
value, a required request scalar is a pointer, and a required array keeps
its bare collection type. -/
theorem field_nullability_witness :
    (wireField .response true (.prim .pString)).nilable = false ∧
    (wireField .request true (.prim .pString)).nilable = true ∧
    wireField .request true (.arr (.prim .pFloat)) =
      .arrOf (wireElem .request (.prim .pFloat)) :=
  ⟨(field_nullability .response true (.prim .pString)).1 rfl rfl (by decide),
   (field_nullability .request true (.prim .pString)).2.1 rfl,
   (field_nullability .request true (.arr (.prim .pFloat))).2.2.2.1 _ rfl⟩

/-- A decoded wire value: nil, a scalar, an array, a map, or a record
given by its field values. -/
inductive Val where
  | vnull
  | vscalar (s : String)
  | varr (elems : List Val)
  | vmap (ents : List (String × Val))
  | vrec (fvs : List (String × Val))

/-- Nil test on a wire value. -/
def Val.isNull : Val → Bool
  | .vnull => true
  | _ => false

/-- Whether a value is a concrete scalar. -/
def scalarOk : Val → Bool
  | .vscalar _ => true
  | _ => false

/-- Field access on a decoded record value (a missing entry reads as the
Go zero value, nil). -/
def lookupF (n : String) : List (String × Val) → Val
  | [] => .vnull
  | (k, v) :: rest => if k = n then v else lookupF n rest

/-- Semantics of one constraint check on a present value.  Length and enum
rules are interpreted on the value; pattern/format/range rules over the
opaque scalar carrier are not interpreted and hold vacuously (they cannot
affect converter totality). -/
def ruleHolds : VRule → Val → Bool
  | .enumOf vs, .vscalar s => vs.contains s
  | .minLength k, .vscalar s => Nat.ble k s.length
  | .minLength k, .varr es => Nat.ble k es.length
  | .maxLength k, .vscalar s => Nat.ble s.length k
  | .maxLength k, .varr es => Nat.ble es.length k
  | _, _ => true

mutual

/-- Structural conformance of a request-body field value to its
attribute: scalars sit behind pointers (nil or scalar), collections are
nil or element-wise conformant, user references are nil or a conformant
record. -/
def shapeField : Attr → Val → Bool
  | .prim _, v => v.isNull || scalarOk v
  | .arr e, v =>
    match v with
    | .vnull => true
    | .varr es => shapeElems e es
    | _ => false
  | .mapOf _ ve, v =>
    match v with
    | .vnull => true
    | .vmap ents => shapeEntries ve ents
    | _ => false
  | .user _ body, v =>
    match v with
    | .vnull => true
    | .vrec fvs => shapeRec body fvs
    | _ => false

termination_by a _ => (sizeOf a, 0)

/-- Structural conformance of a collection element: scalar elements are
plain values, nilable representations may also be nil. -/
def shapeElem : Attr → Val → Bool
  | .prim t, v => if t.scalar then scalarOk v else v.isNull || scalarOk v
  | .arr e, v =>
    match v with
    | .vnull => true
    | .varr es => shapeElems e es
    | _ => false
  | .mapOf _ ve, v =>
    match v with
    | .vnull => true
    | .vmap ents => shapeEntries ve ents
    | _ => false
  | .user _ body, v =>
    match v with
    | .vnull => true
    | .vrec fvs => shapeRec body fvs
    | _ => false

termination_by a _ => (sizeOf a, 0)

/-- Element-wise structural conformance of an array value. -/
def shapeElems (e : Attr) : List Val → Bool
  | [] => true
  | v :: vs => shapeElem e v && shapeElems e vs

termination_by vs => (sizeOf e, 1 + sizeOf vs)

/-- Entry-wise structural conformance of a map value. -/
def shapeEntries (ve : Attr) : List (String × Val) → Bool
  | [] => true
  | kv :: rest => shapeElem ve kv.2 && shapeEntries ve rest

termination_by ents => (sizeOf ve, 1 + sizeOf ents)

/-- Structural conformance of a decoded record value to a field list. -/
def shapeRec : Fields → List (String × Val) → Bool
  | .fnil, _ => true
  | .fcons n _ _ ty rest, fvs =>
    shapeField ty (lookupF n fvs) && shapeRec rest fvs

termination_by fs _ => (sizeOf fs, 0)

end

mutual

/-- Semantics of the generated validation function of one record field
(request role): the missing-field check, the guarded constraint checks and
the guarded recursion into nested records — including the element-wise
loops generated for collections of records. -/
def validField (req : Bool) (rules : List VRule) : Attr → Val → Bool
  | ty, v =>
    (!(req && (wireField .request req ty).nilable && v.isNull)) &&
    (v.isNull || rules.all fun r => ruleHolds r v) &&
    (match ty, v with
     | .user _ body, .vrec fvs => validRec body fvs
     | .arr e, .varr es => validElems e es
     | .mapOf _ ve, .vmap ents => validEntries ve ents
     | _, _ => true)

termination_by ty _ => (sizeOf ty, 0)

/-- Validation of one collection element (nil elements pass; the
converter guards them). -/
def validElem : Attr → Val → Bool
  | .user _ body, .vrec fvs => validRec body fvs
  | .arr e, .varr es => validElems e es
  | .mapOf _ ve, .vmap ents => validEntries ve ents
  | _, _ => true

termination_by a _ => (sizeOf a, 0)

/-- Element-wise validation loop over an array value. -/
def validElems (e : Attr) : List Val → Bool
  | [] => true
  | v :: vs => validElem e v && validElems e vs

termination_by vs => (sizeOf e, 1 + sizeOf vs)

/-- Entry-wise validation loop over a map value. -/
def validEntries (ve : Attr) : List (String × Val) → Bool
  | [] => true
  | kv :: rest => validElem ve kv.2 && validEntries ve rest

termination_by ents => (sizeOf ve, 1 + sizeOf ents)

/-- Semantics of a whole generated record validator: true iff no check
reports an error. -/
def validRec : Fields → List (String × Val) → Bool
  | .fnil, _ => true
  | .fcons n req rules ty rest, fvs =>
    validField req rules ty (lookupF n fvs) && validRec rest fvs

termination_by fs _ => (sizeOf fs, 0)

end

mutual

/-- Semantics of the generated inbound converter for one record field
(spec section 4.5): required scalars are dereferenced (nil dereference is
a panic, modelled as `none`), arrays are rebuilt element by element (a nil
array rebuilds as empty), maps are rebuilt behind a nil guard, and user
references call the shared nested converter — unguarded when the field is
required. -/
def convertField (req : Bool) : Attr → Val → Option Val
  | .prim t, v =>
    if t.scalar && req then
      match v with
      | .vnull => none
      | _ => some v
    else some v
  | .arr e, v =>
    match v with
    | .vnull => some (.varr [])
    | .varr es => (convertElems e es).map .varr
    | _ => none
  | .mapOf _ ve, v =>
    match v with
    | .vnull => some .vnull
    | .vmap ents => (convertEntries ve ents).map .vmap
    | _ => none
  | .user _ body, v =>
    if req then
      match v with
      | .vrec fvs => (convertRec body fvs).map .vrec
      | _ => none
    else
      match v with
      | .vnull => some .vnull
      | .vrec fvs => (convertRec body fvs).map .vrec
      | _ => none

termination_by a _ => (sizeOf a, 0)

/-- Conversion of one collection element (nil nested elements map to
nil). -/
def convertElemV : Attr → Val → Option Val
  | .prim _, v => some v
  | .arr e, v =>
    match v with
    | .vnull => some .vnull
    | .varr es => (convertElems e es).map .varr
    | _ => none
  | .mapOf _ ve, v =>
    match v with
    | .vnull => some .vnull
    | .vmap ents => (convertEntries ve ents).map .vmap
    | _ => none
  | .user _ body, v =>
    match v with
    | .vnull => some .vnull
    | .vrec fvs => (convertRec body fvs).map .vrec
    | _ => none

termination_by a _ => (sizeOf a, 0)

/-- Element-by-element rebuild of an array value. -/
def convertElems (e : Attr) : List Val → Option (List Val)
  | [] => some []
  | v :: vs =>
    match convertElemV e v, convertElems e vs with
    | some dv, some dvs => some (dv :: dvs)
    | _, _ => none

termination_by vs => (sizeOf e, 1 + sizeOf vs)

/-- Entry-by-entry rebuild of a map value. -/
def convertEntries (ve : Attr) : List (String × Val) → Option (List (String × Val))
  | [] => some []
  | kv :: rest =>
    match convertElemV ve kv.2, convertEntries ve rest with
    | some dv, some drest => some ((kv.1, dv) :: drest)
    | _, _ => none

termination_by ents => (sizeOf ve, 1 + sizeOf ents)

/-- Semantics of a whole generated inbound constructor: convert every
field of the decoded record, propagating a panic (`none`) from any
field. -/
def convertRec : Fields → List (String × Val) → Option (List (String × Val))
  | .fnil, _ => some []
  | .fcons n req _ ty rest, fvs =>
    match convertField req ty (lookupF n fvs), convertRec rest fvs with
    | some dv, some drest => some ((n, dv) :: drest)
    | _, _ => none

termination_by fs _ => (sizeOf fs, 0)

end

/-- In request bodies every field representation can hold nil (scalars
are pointers, `bytes`/`any` are raw nilable values, collections and user
references are nilable). -/
theorem request_nilable (req : Bool) (a : Attr) :
    (wireField .request req a).nilable = true := by
  cases a with
  | prim t => cases t <;> rfl
  | arr e => rfl
  | mapOf k v => rfl
  | user un body => rfl

mutual

theorem convertField_total (req : Bool) (rules : List VRule) :
    ∀ (a : Attr) (v : Val), shapeField a v = true → validField req rules a v = true →
      (convertField req a v).isSome = true
  | .prim t, v => by
    intro hs hv
    by_cases hc : (t.scalar && req) = true
    · cases v with
      | vnull =>
        exfalso
        simp only [validField, Bool.and_eq_true] at hv
        have h1 := hv.1.1
        simp only [Bool.and_eq_true] at hc
        rw [hc.2, request_nilable] at h1
        simp [Val.isNull] at h1
      | vscalar s => simp [convertField, hc]
      | varr es => simp [convertField, hc]
      | vmap ents => simp [convertField, hc]
      | vrec fvs => simp [convertField, hc]
    · cases v <;> simp [convertField, hc]
  | .arr e, v => by
    intro hs hv
    cases v with
    | vnull => simp [convertField]
    | vscalar s => simp [shapeField] at hs
    | varr es =>
      simp only [shapeField] at hs
      simp only [validField, Bool.and_eq_true] at hv
      have ht := convertElems_total e es hs hv.2
      simp only [convertField]
      cases he : convertElems e es with
      | none => rw [he] at ht; simp at ht
      | some dvs => simp
    | vmap ents => simp [shapeField] at hs
    | vrec fvs => simp [shapeField] at hs
  | .mapOf k ve, v => by
    intro hs hv
    cases v with
    | vnull => simp [convertField]
    | vscalar s => simp [shapeField] at hs
    | varr es => simp [shapeField] at hs
    | vmap ents =>
      simp only [shapeField] at hs
      simp only [validField, Bool.and_eq_true] at hv
      have ht := convertEntries_total ve ents hs hv.2
      simp only [convertField]
      cases he : convertEntries ve ents with
      | none => rw [he] at ht; simp at ht
      | some dents => simp
    | vrec fvs => simp [shapeField] at hs
  | .user un body, v => by
    intro hs hv
    cases v with
    | vnull =>
      by_cases hreq : req = true
      · exfalso
        simp only [validField, Bool.and_eq_true] at hv
        have h1 := hv.1.1
        rw [hreq, request_nilable] at h1
        simp [Val.isNull] at h1
      · have hreq2 : req = false := by
          cases req
          · rfl
          · exact absurd rfl hreq
        simp [convertField, hreq2]
    | vscalar s => simp [shapeField] at hs
    | varr es => simp [shapeField] at hs
    | vmap ents => simp [shapeField] at hs
    | vrec fvs =>
      simp only [shapeField] at hs
      simp only [validField, Bool.and_eq_true] at hv
      have ht := convertRec_total body fvs hs hv.2
      simp only [convertField]
      cases he : convertRec body fvs with
      | none => rw [he] at ht; simp at ht
      | some dfs => cases req <;> simp
termination_by a _ => (sizeOf a, 0)

theorem convertElemV_total :
    ∀ (a : Attr) (v : Val), shapeElem a v = true → validElem a v = true →
      (convertElemV a v).isSome = true
  | .prim t, v => by
    intro hs hv
    cases v <;> simp [convertElemV]
  | .arr e, v => by
    intro hs hv
    cases v with
    | vnull => simp [convertElemV]
    | vscalar s => simp [shapeElem] at hs
    | varr es =>
      simp only [shapeElem] at hs
      simp only [validElem] at hv
      have ht := convertElems_total e es hs hv
      simp only [convertElemV]
      cases he : convertElems e es with
      | none => rw [he] at ht; simp at ht
      | some dvs => simp
    | vmap ents => simp [shapeElem] at hs
    | vrec fvs => simp [shapeElem] at hs
  | .mapOf k ve, v => by
    intro hs hv
    cases v with
    | vnull => simp [convertElemV]
    | vscalar s => simp [shapeElem] at hs
    | varr es => simp [shapeElem] at hs
    | vmap ents =>
      simp only [shapeElem] at hs
      simp only [validElem] at hv
      have ht := convertEntries_total ve ents hs hv
      simp only [convertElemV]
      cases he : convertEntries ve ents with
      | none => rw [he] at ht; simp at ht
      | some dents => simp
    | vrec fvs => simp [shapeElem] at hs
  | .user un body, v => by
    intro hs hv
    cases v with
    | vnull => simp [convertElemV]
    | vscalar s => simp [shapeElem] at hs
    | varr es => simp [shapeElem] at hs
    | vmap ents => simp [shapeElem] at hs
    | vrec fvs =>
      simp only [shapeElem] at hs
      simp only [validElem] at hv
      have ht := convertRec_total body fvs hs hv
      simp only [convertElemV]
      cases he : convertRec body fvs with
      | none => rw [he] at ht; simp at ht
      | some dfs => simp
termination_by a _ => (sizeOf a, 0)

theorem convertElems_total (e : Attr) :
    ∀ (vs : List Val), shapeElems e vs = true → validElems e vs = true →
      (convertElems e vs).isSome = true
  | [] => by
    intro hs hv
    simp [convertElems]
  | v :: vs => by
    intro hs hv
    simp only [shapeElems, Bool.and_eq_true] at hs
    simp only [validElems, Bool.and_eq_true] at hv
    have h1 := convertElemV_total e v hs.1 hv.1
    have h2 := convertElems_total e vs hs.2 hv.2
    simp only [convertElems]
    cases he1 : convertElemV e v with
    | none => rw [he1] at h1; simp at h1
    | some dv =>
      cases he2 : convertElems e vs with
      | none => rw [he2] at h2; simp at h2
      | some dvs => simp
termination_by vs => (sizeOf e, 1 + sizeOf vs)

theorem convertEntries_total (ve : Attr) :
    ∀ (ents : List (String × Val)), shapeEntries ve ents = true →
      validEntries ve ents = true → (convertEntries ve ents).isSome = true
  | [] => by
    intro hs hv
    simp [convertEntries]
  | kv :: rest => by
    intro hs hv
    simp only [shapeEntries, Bool.and_eq_true] at hs
    simp only [validEntries, Bool.and_eq_true] at hv
    have h1 := convertElemV_total ve kv.2 hs.1 hv.1
    have h2 := convertEntries_total ve rest hs.2 hv.2
    simp only [convertEntries]
    cases he1 : convertElemV ve kv.2 with
    | none => rw [he1] at h1; simp at h1
    | some dv =>
      cases he2 : convertEntries ve rest with
      | none => rw [he2] at h2; simp at h2
      | some drest => simp
termination_by ents => (sizeOf ve, 1 + sizeOf ents)

theorem convertRec_total :
    ∀ (fs : Fields) (fvs : List (String × Val)), shapeRec fs fvs = true →
      validRec fs fvs = true → (convertRec fs fvs).isSome = true
  | .fnil, fvs => by
    intro hs hv
    simp [convertRec]
  | .fcons n req rules ty rest, fvs => by
    intro hs hv
    simp only [shapeRec, Bool.and_eq_true] at hs
    simp only [validRec, Bool.and_eq_true] at hv
    have h1 := convertField_total req rules ty (lookupF n fvs) hs.1 hv.1
    have h2 := convertRec_total rest fvs hs.2 hv.2
    simp only [convertRec]
    cases he1 : convertField req ty (lookupF n fvs) with
    | none => rw [he1] at h1; simp at h1
    | some dv =>
      cases he2 : convertRec rest fvs with
      | none => rw [he2] at h2; simp at h2
      | some drest => simp
termination_by fs _ => (sizeOf fs, 0)

end

/-- C6: for every decoded wire body value that conforms to the body
shape and on which the generated validation function reports no error,
the generated inbound constructor never fails: every dereference it
performs is on a non-nil value. -/
theorem validated_conversion_total (fs : Fields) (fvs : List (String × Val))
    (hs : shapeRec fs fvs = true) (hv : validRec fs fvs = true) :
    (convertRec fs fvs).isSome = true :=
  convertRec_total fs fvs hs hv

/-- A decoded wire value for the MethodB request body: `a` present, `b`
absent, `c` present with its own optional field absent. -/
def methodBVal : List (String × Val) :=
  [("a", .vscalar "hello"), ("b", .vnull), ("c", .vrec [("a", .vnull)])]

/-- Witness for C6 at the MethodB fixture body and a concrete decoded
value that passes validation. -/
theorem validated_conversion_total_witness :
    shapeRec methodBFields methodBVal = true ∧
    validRec methodBFields methodBVal = true ∧
    (convertRec methodBFields methodBVal).isSome = true := by
  have hs : shapeRec methodBFields methodBVal = true := by
    simp [methodBFields, methodBVal, shapeRec, shapeField, lookupF, Val.isNull, scalarOk]
  have hv : validRec methodBFields methodBVal = true := by
    simp [methodBFields, methodBVal, validRec, validField, lookupF, Val.isNull,
      ruleHolds, wireField, WireTy.nilable, Prim.scalar]
  exact ⟨hs, hv, validated_conversion_total methodBFields methodBVal hs hv⟩

end Codegen
